import Mathlib

/-!
Verification of the FOAST-to-ITIR lowering pass (`foast_to_itir.py`):
the Assignment Resolver (inlining of single-assignment bindings into the
final return expression) and the Structural Lowering of the surface field
operator AST into Iterator IR.
-/

namespace FoastToItir

/-- Classification of a declared symbol, as stored in the symbol table.
`foast.FieldSymbol` is the field-kind class that `visit_Name` tests with
`isinstance`; every other declared kind is collapsed into `genericSymbol`
(the lowering only ever distinguishes field-kind from everything else). -/
inductive Symbol where
  | fieldSymbol (id : String)
  | genericSymbol (id : String)
  deriving DecidableEq, Repr

/-- Identifier of a declared symbol. -/
def Symbol.id : Symbol → String
  | .fieldSymbol i => i
  | .genericSymbol i => i

/-- Decides whether a symbol is field-kind (`isinstance(s, foast.FieldSymbol)`). -/
def Symbol.isField : Symbol → Bool
  | .fieldSymbol _ => true
  | .genericSymbol _ => false

/-- The symbol table: a read-only mapping from bound identifier to its
declared symbol (`dict[str, foast.Symbol]` in the source); membership and
lookup are the only operations the lowering performs on it. -/
abbrev SymTable := List (String × Symbol)

/-- Modelled from the spec: the closed enumeration of surface unary
operators (`foast.UnaryOperator`, whose defining module is not part of the
sources here) — "one of {negate, logical-not, ...}"; the spec names the
target primitive of negation `minus` and the source maps each member to a
target call name through its `value` attribute. -/
inductive UnaryOperator where
  | uadd
  | usub
  | notOp
  deriving DecidableEq, Repr

/-- Modelled from the spec: the textual target-primitive name of each
unary operator (`op.value` in the source; the module defining the values
is not part of the sources here).  Negation maps to `minus` per the spec;
unary plus to `plus`; logical-not to `not_`. -/
def UnaryOperator.value : UnaryOperator → String
  | .uadd => "plus"
  | .usub => "minus"
  | .notOp => "not_"

/-- Surface (FOAST) expression nodes, the closed set reachable in value
position: `Name`, `Subscript`, `TupleExpr`, `UnaryOp`, `BinOp`, `Compare`,
`Call`.  Binary and comparison operators are carried by their textual
target name (`op.value`), which is the only way the lowering consumes
them.  Source-location tags are opaque and never inspected by the
lowering, so they are omitted from the embedding. -/
inductive Expr where
  | name (id : String)
  | subscript (value : Expr) (index : Int)
  | tupleExpr (elts : List Expr)
  | unaryOp (op : UnaryOperator) (operand : Expr)
  | binOp (op : String) (left : Expr) (right : Expr)
  | compare (op : String) (left : Expr) (right : Expr)
  | call (func : Expr) (args : List Expr)
  deriving Repr

/-- Decides whether an expression is a bare `Name`
(`isinstance(node.func, foast.Name)` in `visit_Call`). -/
def Expr.isName : Expr → Bool
  | .name _ => true
  | _ => false

/-- Statement nodes of a function body: `Assign(target, value)` (the
target is a `Name`, embedded by its identifier) and `Return(value)`. -/
inductive Stmt where
  | assign (target : String) (value : Expr)
  | ret (value : Expr)
  deriving Repr

/-- Both `Assign` and `Return` carry a `value` attribute in the source;
`nodes[-1].value` in `AssignResolver.apply` reads it without checking the
node kind. -/
def Stmt.value : Stmt → Expr
  | .assign _ v => v
  | .ret v => v

/-- The accumulating substitution mapping of the Assignment Resolver
(`names: dict[str, foast.Expr]`). A `dict` update overwrites, so the
embedding prepends and `List.lookup` (first match) gives the latest
binding. -/
abbrev Names := List (String × Expr)

mutual

/-- Embeds `AssignResolver.visit`: the generic traversal rebuilds every
node from its visited children, and `visit_Name` replaces a `Name` whose
id is a key of `names` by the mapped (already substituted) expression,
without revisiting the replacement; names absent from the mapping pass
through unchanged. -/
def AssignResolver.visit (names : Names) : Expr → Expr
  | .name id =>
      match names.lookup id with
      | some e => e
      | none => .name id
  | .subscript v i => .subscript (AssignResolver.visit names v) i
  | .tupleExpr elts => .tupleExpr (AssignResolver.visitList names elts)
  | .unaryOp op x => .unaryOp op (AssignResolver.visit names x)
  | .binOp op l r => .binOp op (AssignResolver.visit names l) (AssignResolver.visit names r)
  | .compare op l r => .compare op (AssignResolver.visit names l) (AssignResolver.visit names r)
  | .call f args => .call (AssignResolver.visit names f) (AssignResolver.visitList names args)
termination_by structural e => e

/-- Element-wise traversal of child lists by `AssignResolver.visit`. -/
def AssignResolver.visitList (names : Names) : List Expr → List Expr
  | [] => []
  | e :: es => AssignResolver.visit names e :: AssignResolver.visitList names es
termination_by structural es => es

end

/-- Embeds the statement loop of `AssignResolver.apply`: for each node
before the last, `names.update(self.visit(node, names=names))`, where
`visit_Assign` returns `{target.id: visit(value, names)}`; any non-`Assign`
node there makes `dict.update` fail, embedded as `none`.  The last node
contributes `nodes[-1].value`, substituted under the full mapping and
wrapped in a `Return`. -/
def AssignResolver.resolve : List Stmt → Names → Option Stmt
  | [], _ => none
  | s :: rest, names =>
      match rest with
      | [] => some (.ret (AssignResolver.visit names s.value))
      | _ :: _ =>
          match s with
          | .assign t v =>
              AssignResolver.resolve rest ((t, AssignResolver.visit names v) :: names)
          | .ret _ => none
termination_by structural nodes => nodes

/-- Embeds `AssignResolver.apply`: inline the assignment sequence of a
body into its final return statement, starting from an empty mapping;
`none` embeds the exception raised on a body shape the source cannot
process (empty list, or a non-`Assign` before the last statement). -/
def AssignResolver.apply (nodes : List Stmt) : Option Stmt :=
  AssignResolver.resolve nodes []

end FoastToItir

namespace Itir

/-- Target-IR expression nodes: `SymRef`, `FunCall`, `IntLiteral`.  This
closed set has no assignment or return construct, so a value of this type
is a single closed expression tree by construction. -/
inductive Expr where
  | symRef (id : String)
  | funCall (f : Expr) (args : List Expr)
  | intLiteral (value : Int)
  deriving Repr

/-- A bound parameter name in the target IR (`itir.Sym`); it carries no
classification tag. -/
structure Sym where
  id : String
  deriving DecidableEq, Repr

/-- The target-IR function definition produced for one field operator. -/
structure FunctionDefinition where
  id : String
  params : List Sym
  expr : Expr
  deriving Repr

end Itir

namespace FoastToItir

/-- Embeds `zero_arg` of `visit_UnaryOp`:
`[itir.IntLiteral(value=0)] if node.op is not foast.UnaryOperator.NOT else []`. -/
def unaryZeroArg : UnaryOperator → List Itir.Expr
  | .notOp => []
  | _ => [.intLiteral 0]

mutual

/-- Embeds the expression dispatch of `FieldOperatorLowering`
(`visit_Name`, `visit_Subscript`, `visit_TupleExpr`, `visit_UnaryOp`,
`visit_BinOp`, `visit_Compare`, `visit_Call`), parametrised by the
symbol table.  `visit_Name` wraps a field-classified name in a `deref`
call; `visit_Call` takes `SymRef(func.id)` when `func` is a bare `Name`
and otherwise recurses into `func`. -/
def FieldOperatorLowering.visit (symtable : SymTable) : Expr → Itir.Expr
  | .name id =>
      match symtable.lookup id with
      | some (.fieldSymbol _) =>
          .funCall (.symRef "deref") [.symRef id]
      | _ => .symRef id
  | .subscript v i =>
      .funCall (.symRef "tuple_get")
        [FieldOperatorLowering.visit symtable v, .intLiteral i]
  | .tupleExpr elts =>
      .funCall (.symRef "make_tuple") (FieldOperatorLowering.visitList symtable elts)
  | .unaryOp op x =>
      .funCall (.symRef op.value)
        (unaryZeroArg op ++ [FieldOperatorLowering.visit symtable x])
  | .binOp op l r =>
      .funCall (.symRef op)
        [FieldOperatorLowering.visit symtable l, FieldOperatorLowering.visit symtable r]
  | .compare op l r =>
      .funCall (.symRef op)
        [FieldOperatorLowering.visit symtable l, FieldOperatorLowering.visit symtable r]
  | .call f args =>
      .funCall
        (match f with
         | .name fid => .symRef fid
         | _ => FieldOperatorLowering.visit symtable f)
        (FieldOperatorLowering.visitList symtable args)
termination_by structural e => e

/-- Element-wise lowering of child lists, order preserved. -/
def FieldOperatorLowering.visitList (symtable : SymTable) : List Expr → List Itir.Expr
  | [] => []
  | e :: es =>
      FieldOperatorLowering.visit symtable e ::
      FieldOperatorLowering.visitList symtable es
termination_by structural es => es

end

/-- The top-level surface unit: `FieldOperator(id, params, body)` together
with its annotated symbol table (`node.symtable_`, attached by the
upstream stage and read by `visit_FieldOperator`). -/
structure FieldOperator where
  id : String
  params : List Symbol
  body : List Stmt
  symtable : SymTable

/-- Lowering of one declared parameter to a target `Sym` carrying only the
identifier.  The field-symbol case embeds `visit_FieldSymbol`; for the
other declared kinds the dispatch lives in the visitor framework outside
these sources, so that case is Modelled from the spec: "Lower each
parameter `Symbol` to a target `Sym` with the same identifier". -/
def FieldOperatorLowering.visitParam : Symbol → Itir.Sym
  | .fieldSymbol i => ⟨i⟩
  | .genericSymbol i => ⟨i⟩

/-- Embeds `body_visit` composed with `visit_Return`: run the Assignment
Resolver over the body, then lower the inner expression of the resulting
`Return` (a `Return` node has no target-IR counterpart). -/
def FieldOperatorLowering.bodyVisit (symtable : SymTable) (exprs : List Stmt) :
    Option Itir.Expr :=
  match AssignResolver.apply exprs with
  | some (.ret v) => some (FieldOperatorLowering.visit symtable v)
  | some (.assign _ _) => none
  | none => none

/-- Embeds `FieldOperatorLowering.apply` / `visit_FieldOperator`: lower
the parameters, resolve and lower the body, and assemble
`FunctionDefinition(id=node.id, params=params, expr=...)`; `none` embeds
the exception propagated out of a malformed body. -/
def FieldOperatorLowering.apply (node : FieldOperator) : Option Itir.FunctionDefinition :=
  match FieldOperatorLowering.bodyVisit node.symtable node.body with
  | some e =>
      some ⟨node.id, node.params.map FieldOperatorLowering.visitParam, e⟩
  | none => none

/-- A body that is a linear chain of pure renames terminated by a return:
`renameChain x [n1, ..., nk]` is `n1 = x; n2 = n1; ...; nk = n(k-1);
return nk`, where `x` is a free name (for example a parameter). -/
def renameChain (x : String) : List String → List Stmt
  | [] => [.ret (.name x)]
  | n :: rest => .assign n (.name x) :: renameChain n rest

/-- Decides the body-shape invariant of the data model: a non-empty
statement sequence whose last element is a `Return` and whose preceding
elements are all `Assign`. -/
def wellFormedBody : List Stmt → Bool
  | [.ret _] => true
  | .assign _ _ :: rest => wellFormedBody rest
  | _ => false

end FoastToItir

namespace FoastToItir

/-! ## Helper lemmas -/

mutual

theorem AssignResolver.visit_nil : ∀ e : Expr, AssignResolver.visit [] e = e
  | .name _ => rfl
  | .subscript v _ => by
      rw [AssignResolver.visit, AssignResolver.visit_nil v]
  | .tupleExpr elts => by
      rw [AssignResolver.visit, AssignResolver.visitList_nil elts]
  | .unaryOp _ x => by
      rw [AssignResolver.visit, AssignResolver.visit_nil x]
  | .binOp _ l r => by
      rw [AssignResolver.visit, AssignResolver.visit_nil l, AssignResolver.visit_nil r]
  | .compare _ l r => by
      rw [AssignResolver.visit, AssignResolver.visit_nil l, AssignResolver.visit_nil r]
  | .call f args => by
      rw [AssignResolver.visit, AssignResolver.visit_nil f, AssignResolver.visitList_nil args]
termination_by structural e => e

theorem AssignResolver.visitList_nil : ∀ es : List Expr, AssignResolver.visitList [] es = es
  | [] => rfl
  | e :: es => by
      rw [AssignResolver.visitList, AssignResolver.visit_nil e, AssignResolver.visitList_nil es]
termination_by structural es => es

end

theorem FieldOperatorLowering.visitList_eq_map (st : SymTable) :
    ∀ es : List Expr,
      FieldOperatorLowering.visitList st es = es.map (FieldOperatorLowering.visit st)
  | [] => rfl
  | e :: es => by
      rw [FieldOperatorLowering.visitList, List.map_cons,
        FieldOperatorLowering.visitList_eq_map st es]

theorem FieldOperatorLowering.visitParam_id (s : Symbol) :
    FieldOperatorLowering.visitParam s = ⟨s.id⟩ := by
  cases s <;> rfl

theorem AssignResolver.resolve_renameChain (x : String) (ns : List String) :
    ∀ (p : String) (names : Names),
      AssignResolver.visit names (.name p) = Expr.name x →
      AssignResolver.resolve (renameChain p ns) names = some (.ret (.name x)) := by
  induction ns with
  | nil =>
      intro p names h
      show some (Stmt.ret (AssignResolver.visit names (Expr.name p))) = _
      rw [h]
  | cons n rest ih =>
      intro p names h
      obtain ⟨s, t, hst⟩ : ∃ s t, renameChain n rest = s :: t := by
        cases rest <;> exact ⟨_, _, rfl⟩
      have step : AssignResolver.resolve (renameChain p (n :: rest)) names
          = AssignResolver.resolve (renameChain n rest)
              ((n, AssignResolver.visit names (.name p)) :: names) := by
        rw [renameChain, hst]
        rfl
      rw [step, h]
      exact ih n _ (by simp [AssignResolver.visit, List.lookup])

theorem AssignResolver.resolve_of_wellFormed :
    ∀ body : List Stmt, wellFormedBody body = true →
      ∀ names : Names, ∃ e, AssignResolver.resolve body names = some (.ret e) := by
  intro body
  induction body with
  | nil => intro h; exact Bool.noConfusion h
  | cons s rest ih =>
      intro h names
      cases rest with
      | nil =>
          cases s with
          | ret v => exact ⟨AssignResolver.visit names v, rfl⟩
          | assign t v => exact Bool.noConfusion h
      | cons s2 t2 =>
          cases s with
          | assign tg v =>
              obtain ⟨e, he⟩ := ih h ((tg, AssignResolver.visit names v) :: names)
              exact ⟨e, he⟩
          | ret v => exact Bool.noConfusion h

end FoastToItir

namespace FoastToItir

/-! ## Claim theorems -/

/-- Claim C1: for a surface `Name(id)` lowered in value position, a
field-kind classification in the symbol table yields
`FunCall(SymRef("deref"), [SymRef(id)])` — exactly one dereference call
per use site — and any non-field classification yields the bare
`SymRef(id)` with no dereference wrapper. -/
theorem name_value_use_deref_exactness (st : SymTable) (id : String) :
    (∀ fid, st.lookup id = some (Symbol.fieldSymbol fid) →
        FieldOperatorLowering.visit st (Expr.name id)
          = Itir.Expr.funCall (.symRef "deref") [.symRef id])
  ∧ (∀ s, st.lookup id = some s → s.isField = false →
        FieldOperatorLowering.visit st (Expr.name id) = Itir.Expr.symRef id) := by
  constructor
  · intro fid h
    simp [FieldOperatorLowering.visit, h]
  · intro s h hs
    cases s with
    | fieldSymbol fid => exact Bool.noConfusion hs
    | genericSymbol i => simp [FieldOperatorLowering.visit, h]

/-- Witness for C1 at a concrete symbol table holding one field-kind and
one non-field symbol. -/
theorem name_value_use_deref_exactness_app :
    FieldOperatorLowering.visit
        [("inp", Symbol.fieldSymbol "inp"), ("s", Symbol.genericSymbol "s")]
        (Expr.name "inp")
      = Itir.Expr.funCall (.symRef "deref") [.symRef "inp"]
  ∧ FieldOperatorLowering.visit
        [("inp", Symbol.fieldSymbol "inp"), ("s", Symbol.genericSymbol "s")]
        (Expr.name "s")
      = Itir.Expr.symRef "s" :=
  ⟨(name_value_use_deref_exactness
      [("inp", Symbol.fieldSymbol "inp"), ("s", Symbol.genericSymbol "s")] "inp").1 "inp" rfl,
   (name_value_use_deref_exactness
      [("inp", Symbol.fieldSymbol "inp"), ("s", Symbol.genericSymbol "s")] "s").2
      (Symbol.genericSymbol "s") rfl rfl⟩

/-- Claim C2: lowering `Call(func, args)` puts `SymRef(func.id)` in the
`fun` position whenever `func` is a bare `Name` — never a `deref` call,
whatever the symbol table classifies that id as — and the recursive
lowering of `func` otherwise; the argument list is the element-wise
lowering of `args`, order preserved. -/
theorem call_target_never_dereferenced (st : SymTable) (args : List Expr) :
    (∀ fid, FieldOperatorLowering.visit st (Expr.call (.name fid) args)
        = Itir.Expr.funCall (.symRef fid) (args.map (FieldOperatorLowering.visit st)))
  ∧ (∀ f, f.isName = false →
        FieldOperatorLowering.visit st (Expr.call f args)
          = Itir.Expr.funCall (FieldOperatorLowering.visit st f)
              (args.map (FieldOperatorLowering.visit st))) := by
  constructor
  · intro fid
    exact congrArg (Itir.Expr.funCall _) (FieldOperatorLowering.visitList_eq_map st args)
  · intro f hf
    cases f <;>
      first
        | exact Bool.noConfusion hf
        | exact congrArg (Itir.Expr.funCall _) (FieldOperatorLowering.visitList_eq_map st args)

/-- Witness for C2: a field-classified name in call-target position stays
a bare `SymRef`, while the same name in argument position is dereferenced;
a non-`Name` target is lowered recursively. -/
theorem call_target_never_dereferenced_app :
    FieldOperatorLowering.visit [("inp", Symbol.fieldSymbol "inp")]
        (Expr.call (.name "inp") [.name "x"])
      = Itir.Expr.funCall (.symRef "inp") [.symRef "x"]
  ∧ FieldOperatorLowering.visit [("inp", Symbol.fieldSymbol "inp")]
        (Expr.call (Expr.subscript (.name "x") 0) [.name "inp"])
      = Itir.Expr.funCall
          (Itir.Expr.funCall (.symRef "tuple_get") [.symRef "x", .intLiteral 0])
          [Itir.Expr.funCall (.symRef "deref") [.symRef "inp"]] :=
  ⟨(call_target_never_dereferenced [("inp", Symbol.fieldSymbol "inp")] [.name "x"]).1 "inp",
   (call_target_never_dereferenced [("inp", Symbol.fieldSymbol "inp")] [.name "inp"]).2
      (Expr.subscript (.name "x") 0) rfl⟩

/-- Claim C3: a well-formed body that is a chain of pure renames ending in
a return resolves to a `Return` whose value is the ultimate source name
itself, with no residual `Assign` node; in particular `tmp = x; return
tmp` and `a = x; b = a; return b` both resolve to `return x`. -/
theorem rename_chain_collapse :
    (∀ (x : String) (ns : List String),
        AssignResolver.apply (renameChain x ns) = some (.ret (.name x)))
  ∧ AssignResolver.apply [.assign "tmp" (.name "x"), .ret (.name "tmp")]
      = some (.ret (.name "x"))
  ∧ AssignResolver.apply
        [.assign "a" (.name "x"), .assign "b" (.name "a"), .ret (.name "b")]
      = some (.ret (.name "x")) := by
  refine ⟨fun x ns => ?_, rfl, rfl⟩
  exact AssignResolver.resolve_renameChain x ns x [] rfl

/-- Claim C4: lowering a well-formed `FieldOperator` yields exactly one
`FunctionDefinition` whose id equals the operator's id and whose params
are one `Sym` per surface parameter with the same identifier in the same
order and no classification tag; the expression is the lowering of the
single resolved return value, and the target expression type has no
assignment or return constructor, so it is one closed expression tree. -/
theorem field_operator_lowering_shape (fo : FieldOperator)
    (h : wellFormedBody fo.body = true) :
    ∃ fd : Itir.FunctionDefinition,
      FieldOperatorLowering.apply fo = some fd
        ∧ fd.id = fo.id
        ∧ fd.params = fo.params.map (fun s => Itir.Sym.mk s.id)
        ∧ ∃ v, AssignResolver.apply fo.body = some (.ret v)
            ∧ fd.expr = FieldOperatorLowering.visit fo.symtable v := by
  obtain ⟨v, hv⟩ := AssignResolver.resolve_of_wellFormed fo.body h []
  refine ⟨⟨fo.id, fo.params.map FieldOperatorLowering.visitParam,
      FieldOperatorLowering.visit fo.symtable v⟩, ?_, rfl, ?_, v, hv, rfl⟩
  · unfold FieldOperatorLowering.apply FieldOperatorLowering.bodyVisit AssignResolver.apply
    simp only [hv]
  · have hfun : FieldOperatorLowering.visitParam = fun s : Symbol => Itir.Sym.mk s.id :=
      funext FieldOperatorLowering.visitParam_id
    rw [hfun]

/-- Witness for C4 at a concrete two-parameter operator with a one-assign
body. -/
theorem field_operator_lowering_shape_app :
    ∃ fd : Itir.FunctionDefinition,
      FieldOperatorLowering.apply
          ⟨"fieldop", [Symbol.fieldSymbol "inp", Symbol.genericSymbol "scale"],
            [Stmt.assign "tmp" (Expr.name "inp"), Stmt.ret (Expr.name "tmp")],
            [("inp", Symbol.fieldSymbol "inp"), ("scale", Symbol.genericSymbol "scale")]⟩
        = some fd
        ∧ fd.id = "fieldop"
        ∧ fd.params = [⟨"inp"⟩, ⟨"scale"⟩]
        ∧ ∃ v, AssignResolver.apply
              [Stmt.assign "tmp" (Expr.name "inp"), Stmt.ret (Expr.name "tmp")]
              = some (.ret v)
            ∧ fd.expr = FieldOperatorLowering.visit
                [("inp", Symbol.fieldSymbol "inp"), ("scale", Symbol.genericSymbol "scale")] v :=
  field_operator_lowering_shape
    ⟨"fieldop", [Symbol.fieldSymbol "inp", Symbol.genericSymbol "scale"],
      [Stmt.assign "tmp" (Expr.name "inp"), Stmt.ret (Expr.name "tmp")],
      [("inp", Symbol.fieldSymbol "inp"), ("scale", Symbol.genericSymbol "scale")]⟩ rfl

/-- Claim C5: lowering unary negation produces the two-argument call
`FunCall(SymRef("minus"), [IntLiteral(0), lower(x)])` — subtraction from
an implicit zero, never a one-argument call — and lowering logical-not
produces the one-argument call `FunCall(SymRef("not_"), [lower(x)])`. -/
theorem unary_negation_desugaring (st : SymTable) (x : Expr) :
    FieldOperatorLowering.visit st (Expr.unaryOp .usub x)
      = Itir.Expr.funCall (.symRef "minus")
          [.intLiteral 0, FieldOperatorLowering.visit st x]
  ∧ FieldOperatorLowering.visit st (Expr.unaryOp .notOp x)
      = Itir.Expr.funCall (.symRef "not_") [FieldOperatorLowering.visit st x] :=
  ⟨rfl, rfl⟩

/-- Claim C6: lowering `(a, b)[1]` produces exactly
`FunCall(SymRef("tuple_get"), [FunCall(SymRef("make_tuple"), [lower(a),
lower(b)]), IntLiteral(1)])`, and the stage performs no constant folding
of the access: the result never equals the lowering of `b` alone. -/
theorem tuple_subscript_no_folding (st : SymTable) (a b : Expr) :
    FieldOperatorLowering.visit st (Expr.subscript (.tupleExpr [a, b]) 1)
      = Itir.Expr.funCall (.symRef "tuple_get")
          [Itir.Expr.funCall (.symRef "make_tuple")
              [FieldOperatorLowering.visit st a, FieldOperatorLowering.visit st b],
            .intLiteral 1]
  ∧ FieldOperatorLowering.visit st (Expr.subscript (.tupleExpr [a, b]) 1)
      ≠ FieldOperatorLowering.visit st b := by
  refine ⟨rfl, fun hfold => ?_⟩
  have h1 : sizeOf (FieldOperatorLowering.visit st b)
      < sizeOf (FieldOperatorLowering.visit st (Expr.subscript (.tupleExpr [a, b]) 1)) := by
    show sizeOf (FieldOperatorLowering.visit st b)
        < sizeOf (Itir.Expr.funCall (.symRef "tuple_get")
            [Itir.Expr.funCall (.symRef "make_tuple")
                [FieldOperatorLowering.visit st a, FieldOperatorLowering.visit st b],
              .intLiteral 1])
    simp
    omega
  rw [hfold] at h1
  exact lt_irrefl _ h1

/-- Claim C7: a bound name referenced more than once is spliced
syntactically at every reference site: `a = e; return (a, a)` resolves to
a `Return` of `TupleExpr([e, e])`, the defining expression duplicated
rather than shared through any binding construct. -/
theorem assign_duplication_splice (e : Expr) :
    AssignResolver.apply [.assign "a" e, .ret (.tupleExpr [.name "a", .name "a"])]
      = some (.ret (.tupleExpr [e, e])) := by
  have h := AssignResolver.visit_nil e
  show some (Stmt.ret (Expr.tupleExpr
      [AssignResolver.visit [] e, AssignResolver.visit [] e])) = _
  rw [h]

/-- Claim C8: lowering is deterministic and referentially transparent:
the output is fully determined by id, parameters, body and symbol table —
there is no hidden state, no traversal of an unordered collection and no
tie-breaking — so equal inputs give structurally identical outputs. -/
theorem lowering_deterministic (fo fo2 : FieldOperator)
    (hid : fo.id = fo2.id) (hparams : fo.params = fo2.params)
    (hbody : fo.body = fo2.body) (hsym : fo.symtable = fo2.symtable) :
    FieldOperatorLowering.apply fo = FieldOperatorLowering.apply fo2 := by
  cases fo
  cases fo2
  cases hid
  cases hparams
  cases hbody
  cases hsym
  rfl

/-- Witness for C8: two invocations of the lowering on the same concrete
operator agree. -/
theorem lowering_deterministic_app :
    FieldOperatorLowering.apply
        ⟨"fieldop", [Symbol.fieldSymbol "inp"], [Stmt.ret (Expr.name "inp")],
          [("inp", Symbol.fieldSymbol "inp")]⟩
      = FieldOperatorLowering.apply
        ⟨"fieldop", [Symbol.fieldSymbol "inp"], [Stmt.ret (Expr.name "inp")],
          [("inp", Symbol.fieldSymbol "inp")]⟩ :=
  lowering_deterministic
    ⟨"fieldop", [Symbol.fieldSymbol "inp"], [Stmt.ret (Expr.name "inp")],
      [("inp", Symbol.fieldSymbol "inp")]⟩
    ⟨"fieldop", [Symbol.fieldSymbol "inp"], [Stmt.ret (Expr.name "inp")],
      [("inp", Symbol.fieldSymbol "inp")]⟩ rfl rfl rfl rfl

/-- Claim C9: a `Name(id)` whose id is absent from the symbol table lowers
with no error to the bare `SymRef(id)` — the lowering is a total function
and treats the unclassified name exactly like a non-field binding. -/
theorem unclassified_name_passthrough (st : SymTable) (id : String)
    (h : st.lookup id = none) :
    FieldOperatorLowering.visit st (Expr.name id) = Itir.Expr.symRef id := by
  simp [FieldOperatorLowering.visit, h]

/-- Witness for C9: a name missing from a non-empty symbol table passes
through undereferenced. -/
theorem unclassified_name_passthrough_app :
    FieldOperatorLowering.visit [("inp", Symbol.fieldSymbol "inp")] (Expr.name "undeclared")
      = Itir.Expr.symRef "undeclared" :=
  unclassified_name_passthrough [("inp", Symbol.fieldSymbol "inp")] "undeclared" rfl

/-- Claim C10: the implicit `IntLiteral(0)` first argument is prepended
for every unary operator that is not logical-not — not only negation —
while logical-not always yields a call with exactly one argument. -/
theorem unary_zero_for_all_non_not (st : SymTable) (x : Expr) :
    (∀ op : UnaryOperator, op ≠ .notOp →
        FieldOperatorLowering.visit st (Expr.unaryOp op x)
          = Itir.Expr.funCall (.symRef op.value)
              [.intLiteral 0, FieldOperatorLowering.visit st x])
  ∧ FieldOperatorLowering.visit st (Expr.unaryOp .notOp x)
      = Itir.Expr.funCall (.symRef "not_") [FieldOperatorLowering.visit st x] := by
  refine ⟨fun op hop => ?_, rfl⟩
  cases op with
  | uadd => rfl
  | usub => rfl
  | notOp => exact absurd rfl hop

/-- Witness for C10: the zero-operand encoding applies to unary plus as
well, not only to negation. -/
theorem unary_zero_for_all_non_not_app :
    FieldOperatorLowering.visit [] (Expr.unaryOp .uadd (.name "x"))
      = Itir.Expr.funCall (.symRef "plus") [.intLiteral 0, .symRef "x"] :=
  (unary_zero_for_all_non_not [] (Expr.name "x")).1 .uadd (by decide)

end FoastToItir
